import Mathlib

/-!
Verification of the byte-level / BPE tokenizer in
`src/Homework/01/scripts/tokenizer.py`.

Embedding conventions:
* A Python text (`str`) is embedded as its UTF-8 byte sequence, a
  `List Nat` whose elements are `< 256`.  `text.encode('utf-8')` is
  therefore the identity on that representation, and
  `bytes.decode('utf-8', errors='replace')` is its inverse on valid
  sequences, so round-trip statements are made at the byte level.
* The Python `dict` `self.vocab` always has keys `0, 1, ..., n-1`,
  inserted in that order (`init_vocab` inserts `0..258`; `train` only
  ever inserts at key `len(self.vocab)`), so it is embedded as a
  `List (List Nat)` whose index is the key; `vocab[idx]` raising
  `KeyError` corresponds to the index being out of range.
* The Python `dict`s `self.merges` and the pair counter are embedded as
  insertion-ordered association lists; assignment updates a present key
  in place or appends a fresh one, exactly like a Python `dict`.
* The two `while` loops (`merge` and `BpeTokenizer.encode`) are embedded
  with an explicit iteration budget equal to the length of the sequence
  being scanned, which is an upper bound on the number of iterations
  (proved below: every `encode` iteration strictly shrinks the sequence,
  and every `merge` iteration advances the cursor).
-/

set_option maxRecDepth 8000

/-- Decidable equality for `Except` values, used to evaluate the embedded
fallible operations on concrete inputs. -/
instance {ε α : Type} [DecidableEq ε] [DecidableEq α] : DecidableEq (Except ε α) := fun a b =>
  match a, b with
  | Except.ok x, Except.ok y =>
    if h : x = y then isTrue (by rw [h]) else isFalse (by simp [h])
  | Except.error x, Except.error y =>
    if h : x = y then isTrue (by rw [h]) else isFalse (by simp [h])
  | Except.ok _, Except.error _ => isFalse (by simp)
  | Except.error _, Except.ok _ => isFalse (by simp)

/-- `b'<pad>'` from `ByteTokenizer.__init__`, as its byte values. -/
def padBytes : List Nat := [60, 112, 97, 100, 62]

/-- `b'<bos>'` from `ByteTokenizer.__init__`, as its byte values. -/
def bosBytes : List Nat := [60, 98, 111, 115, 62]

/-- `b'<eos>'` from `ByteTokenizer.__init__`, as its byte values. -/
def eosBytes : List Nat := [60, 101, 111, 115, 62]

/-- `self.special_tokens = [pad_token, bos_token, eos_token]`. -/
def special_tokens : List (List Nat) := [padBytes, bosBytes, eosBytes]

/-- `ByteTokenizer.init_vocab`: `{idx: bytes([idx]) for idx in range(256)}`
followed by `for token in special_tokens: vocab[len(vocab)] = token`.
Appending at key `len(vocab)` is list append in the embedding. -/
def baseVocab : List (List Nat) :=
  special_tokens.foldl (fun v tok => v ++ [tok]) ((List.range 256).map (fun idx => [idx]))

/-- The mutable state of a `BpeTokenizer`: `self.vocab` and `self.merges`.
(`ByteTokenizer` is the special case with an empty merge table.) -/
structure BpeState where
  vocab : List (List Nat)
  merges : List ((Nat × Nat) × Nat)
  deriving DecidableEq

/-- State right after `BpeTokenizer.init_vocab`: base vocabulary, no merges. -/
def bpeInit : BpeState := ⟨baseVocab, []⟩

/-- `BpeTokenizer.init_vocab` as a state transition: it rebuilds the
vocabulary from scratch and clears the merge table, ignoring prior state. -/
def initVocabFn (_s : BpeState) : BpeState := bpeInit

/-- `ByteTokenizer.encode`: `list(text.encode('utf-8'))`.  With text
embedded as its UTF-8 bytes this is the identity on the byte list. -/
def byteEncode (text : List Nat) : List Nat := text

/-- The error raised by `ByteTokenizer.decode`: `self.vocab[idx]` raises
`KeyError(idx)` when `idx` is not a key of the vocabulary. -/
inductive DecodeError where
  | unknownSymbol : Nat → DecodeError
  deriving DecidableEq

/-- `ByteTokenizer.decode` up to the byte string:
`b''.join(self.vocab[idx] for idx in ids)`.  The generator is evaluated
left to right, so the error names the first unknown id.  The final
`.decode('utf-8', errors='replace')` step is Python's codec (not code of
this repository); it is total and deterministic on the byte string, and
the identity on valid UTF-8, so decoding is stated at the byte level. -/
def decodeBytes (vocab : List (List Nat)) : List Nat → Except DecodeError (List Nat)
  | [] => Except.ok []
  | i :: rest =>
    match vocab[i]? with
    | none => Except.error (DecodeError.unknownSymbol i)
    | some e => (decodeBytes vocab rest).map (fun bs => e ++ bs)

/-- The byte string produced by a successful decode: the concatenation of
every id's vocabulary expansion. -/
def joinExpand (vocab : List (List Nat)) (ids : List Nat) : List Nat :=
  (ids.map (fun i => vocab.getD i [])).flatten

/-- `pairs[pair] = pairs.get(pair, 0) + 1` on an insertion-ordered dict:
update the key in place if present, else append it with count 1. -/
def bump (pairs : List ((Nat × Nat) × Nat)) (p : Nat × Nat) : List ((Nat × Nat) × Nat) :=
  match pairs with
  | [] => [(p, 1)]
  | (q, c) :: rest => if q = p then (q, c + 1) :: rest else (q, c) :: bump rest p

/-- The inner loop of `count_pairs`:
`for i in range(len(ids) - 1): pair = (ids[i], ids[i+1]); pairs[pair] += 1`. -/
def countOne (pairs : List ((Nat × Nat) × Nat)) (ids : List Nat) : List ((Nat × Nat) × Nat) :=
  (List.range (ids.length - 1)).foldl (fun m i => bump m (ids.getD i 0, ids.getD (i + 1) 0)) pairs

/-- `count_pairs(data)`: tally adjacent pairs over every sequence. -/
def count_pairs (data : List (List Nat)) : List ((Nat × Nat) × Nat) :=
  data.foldl countOne []

/-- The adjacent pairs `(ids[i], ids[i+1])`, `0 ≤ i < len(ids) - 1`, in
scan order; the structural counterpart of `countOne`'s index loop. -/
def adjacentPairs : List Nat → List (Nat × Nat)
  | a :: b :: rest => (a, b) :: adjacentPairs (b :: rest)
  | _ => []

/-- The keys of an insertion-ordered dict, in insertion order
(`cnt.keys()`). -/
def keysOf (m : List ((Nat × Nat) × Nat)) : List (Nat × Nat) := m.map Prod.fst

/-- Dict lookup returning `none` for a missing key (`pair in d` / `d[pair]`). -/
def lookupA (m : List ((Nat × Nat) × Nat)) (p : Nat × Nat) : Option Nat :=
  match m with
  | [] => none
  | (q, c) :: rest => if q = p then some c else lookupA rest p

/-- `cnt[p]` for a key known to be present (0 for an absent key). -/
def cntOf (m : List ((Nat × Nat) × Nat)) (p : Nat × Nat) : Nat :=
  (lookupA m p).getD 0

/-- `d[p] = v` on an insertion-ordered dict: overwrite in place or append. -/
def dictInsert (m : List ((Nat × Nat) × Nat)) (p : Nat × Nat) (v : Nat) :
    List ((Nat × Nat) × Nat) :=
  match m with
  | [] => [(p, v)]
  | (q, c) :: rest => if q = p then (q, v) :: rest else (q, c) :: dictInsert rest p v

/-- The `while i < len(numbers)` loop of `merge`, with cursor `i`,
accumulator `result`, and an explicit iteration budget (the cursor grows
by at least 1 per iteration, so `numbers.length` iterations suffice;
see `mergeLoop_eq_go`). -/
def mergeLoop (numbers : List Nat) (pair : Nat × Nat) (idx : Nat) :
    Nat → Nat → List Nat → List Nat
  | 0, _, result => result
  | fuel + 1, i, result =>
    if i < numbers.length then
      if i + 1 < numbers.length ∧ (numbers.getD i 0, numbers.getD (i + 1) 0) = pair then
        mergeLoop numbers pair idx fuel (i + 2) (result ++ [idx])
      else
        mergeLoop numbers pair idx fuel (i + 1) (result ++ [numbers.getD i 0])
    else result

/-- `merge(numbers, pair, idx)` from the source: left-to-right scan
replacing each non-overlapping occurrence of `pair` by `idx`. -/
def merge (numbers : List Nat) (pair : Nat × Nat) (idx : Nat) : List Nat :=
  mergeLoop numbers pair idx numbers.length 0 []

/-- Structural form of the `merge` scan: on a match emit the replacement
and advance two positions, otherwise emit the current element and advance
one (proved equal to `merge` in `merge_eq_go`). -/
def mergeGo (pair : Nat × Nat) (idx : Nat) : List Nat → List Nat
  | [] => []
  | [a] => [a]
  | a :: b :: rest =>
    if (a, b) = pair then idx :: mergeGo pair idx rest
    else a :: mergeGo pair idx (b :: rest)

/-- Induction along the two-step recursion pattern of the scan. -/
theorem twoStepInduction {P : List Nat → Prop} (hnil : P []) (hone : ∀ a, P [a])
    (htwo : ∀ a b rest, P rest → P (b :: rest) → P (a :: b :: rest)) :
    ∀ l, P l
  | [] => hnil
  | [a] => hone a
  | a :: b :: rest =>
    htwo a b rest (twoStepInduction hnil hone htwo rest)
      (twoStepInduction hnil hone htwo (b :: rest))

/-- Python's `<` on the 2-tuples produced by `key=lambda p: (cnt[p], sum(p))`:
lexicographic order on `Nat × Nat`. -/
def lexLT (a b : Nat × Nat) : Prop :=
  a.1 < b.1 ∨ (a.1 = b.1 ∧ a.2 < b.2)

instance (a b : Nat × Nat) : Decidable (lexLT a b) := by
  unfold lexLT; infer_instance

/-- The key function of the selection: `lambda p: (cnt[p], sum(p))`. -/
def pkey (cnt : List ((Nat × Nat) × Nat)) (p : Nat × Nat) : Nat × Nat :=
  (cntOf cnt p, p.1 + p.2)

/-- Python `max(..., key=k)` over a non-empty iterable, as a fold keeping
the current best and replacing it only on a strictly larger key (so the
first maximal element wins). -/
def pickMax (k : Nat × Nat → Nat × Nat) (best : Nat × Nat) (l : List (Nat × Nat)) : Nat × Nat :=
  l.foldl (fun b x => if lexLT (k b) (k x) then x else b) best

/-- `max(cnt.keys(), key=lambda p: (cnt[p], sum(p)))`, or `none` when the
dict is empty (Python raises `ValueError` there). -/
def selectPair (cnt : List ((Nat × Nat) × Nat)) : Option (Nat × Nat) :=
  match cnt with
  | [] => none
  | e :: rest => some (pickMax (pkey cnt) e.1 (keysOf rest))

/-- `isMaxKey cnt p`: no key of `cnt` has a strictly larger
(frequency, id-sum) key than `p`. -/
def isMaxKey (cnt : List ((Nat × Nat) × Nat)) (p : Nat × Nat) : Bool :=
  (keysOf cnt).all (fun q => ! decide (lexLT (pkey cnt p) (pkey cnt q)))

/-- `BpeTokenizer.train` error: `max()` on an empty pair dict raises
`ValueError` (`max() arg is an empty sequence`). -/
inductive TrainError where
  | maxOfEmpty : TrainError
  deriving DecidableEq

/-- The `for _ in progress_bar` loop of `BpeTokenizer.train`; the fuel is
the Python `range(max_vocab - len(self.vocab))` bound. -/
def trainLoop : Nat → BpeState → List (List Nat) → Except TrainError BpeState
  | 0, st, _ => Except.ok st
  | fuel + 1, st, seqs =>
    let cnt := count_pairs seqs
    match selectPair cnt with
    | none => Except.error TrainError.maxOfEmpty
    | some pair =>
      if cntOf cnt pair = 1 then Except.ok st
      else
        trainLoop fuel
          ⟨st.vocab ++ [st.vocab.getD pair.1 [] ++ st.vocab.getD pair.2 []],
           dictInsert st.merges pair st.vocab.length⟩
          (seqs.map (fun ids => merge ids pair st.vocab.length))

/-- `BpeTokenizer.train(texts, max_vocab)`: reset, early return when the
target does not exceed the base size, else run the merge loop.  `texts`
are already embedded as byte lists (`list(text.encode('utf-8'))`). -/
def train (texts : List (List Nat)) (maxVocab : Nat) : Except TrainError BpeState :=
  if maxVocab ≤ bpeInit.vocab.length then Except.ok bpeInit
  else trainLoop (maxVocab - bpeInit.vocab.length) bpeInit texts

/-- The `while len(ids) > 1` loop of `BpeTokenizer.encode`, with an
explicit iteration budget (each iteration that does not `break` strictly
shrinks `ids`, so `ids.length` iterations suffice; see
`encodeFuel_length_le`). -/
def encodeFuel (merges : List ((Nat × Nat) × Nat)) : Nat → List Nat → List Nat
  | 0, ids => ids
  | fuel + 1, ids =>
    if 1 < ids.length then
      match selectPair (count_pairs [ids]) with
      | none => ids
      | some pair =>
        match lookupA merges pair with
        | none => ids
        | some idx => encodeFuel merges fuel (merge ids pair idx)
    else ids

/-- `BpeTokenizer.encode(text)` with the text embedded as its UTF-8 bytes. -/
def bpeEncode (st : BpeState) (text : List Nat) : List Nat :=
  encodeFuel st.merges text.length text

/-- The state invariant maintained by training: every raw byte decodes to
itself, and every merge-table entry maps a pair of known ids to a known id
whose expansion is the concatenation of the pair's expansions. -/
def TokInv (st : BpeState) : Prop :=
  (∀ b, b < 256 → st.vocab[b]? = some [b]) ∧
  (∀ p i, lookupA st.merges p = some i →
    ∃ e₁ e₂, st.vocab[p.1]? = some e₁ ∧ st.vocab[p.2]? = some e₂ ∧
      st.vocab[i]? = some (e₁ ++ e₂))

/-- The state produced by `train([[97,98,97,98]], 260)`: one merge,
`(97,98) ↦ 259`, with expansion `"ab"`. -/
def st260 : BpeState := ⟨baseVocab ++ [[97, 98]], [((97, 98), 259)]⟩

/-! ### Association-list counting lemmas -/

lemma lookupA_bump (q p : Nat × Nat) :
    ∀ m, lookupA (bump m q) p = if q = p then some (cntOf m p + 1) else lookupA m p := by
  intro m
  induction m with
  | nil =>
    by_cases h : q = p
    · simp [bump, lookupA, cntOf, h]
    · simp [bump, lookupA, cntOf, h]
  | cons e rest ih =>
    obtain ⟨r, c⟩ := e
    by_cases hrq : r = q
    · by_cases hqp : q = p
      · simp [bump, lookupA, cntOf, hrq, hrq.trans hqp, hqp]
      · have hrp : ¬ r = p := fun h => hqp (hrq.symm.trans h)
        simp [bump, lookupA, cntOf, hrq, hrp, hqp]
    · by_cases hrp : r = p
      · have hqp : ¬ q = p := fun h => hrq (hrp.trans h.symm)
        have hpq : ¬ p = q := fun h => hrq (hrp.trans h)
        simp [bump, lookupA, cntOf, hrq, hrp, hqp, hpq]
      · simp [bump, lookupA, cntOf, hrq, hrp, ih]

lemma cntOf_bump (m : List ((Nat × Nat) × Nat)) (q p : Nat × Nat) :
    cntOf (bump m q) p = cntOf m p + if q = p then 1 else 0 := by
  by_cases h : q = p <;> simp [cntOf, lookupA_bump, h]

lemma keysOf_bump_subset (q p : Nat × Nat) :
    ∀ m, p ∈ keysOf (bump m q) → p ∈ keysOf m ∨ p = q := by
  intro m
  induction m with
  | nil =>
    intro h
    simp [bump, keysOf] at h
    exact Or.inr h
  | cons e rest ih =>
    obtain ⟨r, c⟩ := e
    intro h
    by_cases hrq : r = q
    · rw [keysOf] at h ⊢
      simp only [bump, if_pos hrq, List.map_cons] at h
      exact Or.inl h
    · rw [keysOf] at h ⊢
      simp only [bump, if_neg hrq, List.map_cons, List.mem_cons] at h
      rcases h with h | h
      · exact Or.inl (by simp [h])
      · rcases ih h with h2 | h2
        · rw [keysOf] at h2
          exact Or.inl (by simp [h2])
        · exact Or.inr h2

lemma cntOf_foldl_bump (l : List (Nat × Nat)) (p : Nat × Nat) :
    ∀ m, cntOf (l.foldl bump m) p = cntOf m p + l.count p := by
  induction l with
  | nil => simp
  | cons q rest ih =>
    intro m
    rw [List.foldl_cons, ih, cntOf_bump, List.count_cons]
    by_cases h : q = p
    · simp [h]
      omega
    · simp [h, Ne.symm h]

lemma keysOf_foldl_bump (l : List (Nat × Nat)) (p : Nat × Nat) :
    ∀ m, p ∈ keysOf (l.foldl bump m) → p ∈ keysOf m ∨ p ∈ l := by
  induction l with
  | nil => intro m h; exact Or.inl h
  | cons q rest ih =>
    intro m h
    rw [List.foldl_cons] at h
    rcases ih _ h with h2 | h2
    · rcases keysOf_bump_subset _ _ _ h2 with h3 | h3
      · exact Or.inl h3
      · exact Or.inr (by simp [h3])
    · exact Or.inr (List.mem_cons_of_mem _ h2)

lemma adjacentPairs_eq_range_map (ids : List Nat) :
    (List.range (ids.length - 1)).map (fun i => (ids.getD i 0, ids.getD (i + 1) 0)) =
      adjacentPairs ids := by
  induction ids with
  | nil => simp [adjacentPairs]
  | cons a tail ih =>
    cases tail with
    | nil => simp [adjacentPairs]
    | cons b rest =>
      have hlen : (a :: b :: rest).length - 1 = (b :: rest).length := by simp
      rw [hlen]
      have hlen2 : (b :: rest).length = rest.length + 1 := by simp
      rw [hlen2, List.range_succ_eq_map, List.map_cons, List.map_map]
      have hbr : (b :: rest).length - 1 = rest.length := by simp
      rw [adjacentPairs]
      congr 1

lemma countOne_eq (m : List ((Nat × Nat) × Nat)) (ids : List Nat) :
    countOne m ids = (adjacentPairs ids).foldl bump m := by
  rw [countOne, ← adjacentPairs_eq_range_map, List.foldl_map]

lemma cntOf_count_pairs_aux (data : List (List Nat)) (p : Nat × Nat) :
    ∀ m, cntOf (data.foldl countOne m) p =
      cntOf m p + (data.map (fun ids => (adjacentPairs ids).count p)).sum := by
  induction data with
  | nil => simp
  | cons ids rest ih =>
    intro m
    rw [List.foldl_cons, ih, countOne_eq, cntOf_foldl_bump]
    simp [Nat.add_assoc]

lemma mem_keys_count_pairs (data : List (List Nat)) (p : Nat × Nat)
    (h : p ∈ keysOf (count_pairs data)) : ∃ ids ∈ data, p ∈ adjacentPairs ids := by
  rw [count_pairs] at h
  suffices hgen : ∀ m, p ∈ keysOf (data.foldl countOne m) →
      p ∈ keysOf m ∨ ∃ ids ∈ data, p ∈ adjacentPairs ids by
    rcases hgen [] h with h2 | h2
    · simp [keysOf] at h2
    · exact h2
  clear h
  induction data with
  | nil => intro m h; exact Or.inl h
  | cons ids rest ih =>
    intro m h
    rw [List.foldl_cons] at h
    rcases ih _ h with h2 | h2
    · rw [countOne_eq] at h2
      rcases keysOf_foldl_bump _ _ _ h2 with h3 | h3
      · exact Or.inl h3
      · exact Or.inr ⟨ids, by simp, h3⟩
    · obtain ⟨l, hl, hp⟩ := h2
      exact Or.inr ⟨l, List.mem_cons_of_mem _ hl, hp⟩

lemma adjacentPairs_mem (ids : List Nat) :
    ∀ a b, (a, b) ∈ adjacentPairs ids → a ∈ ids ∧ b ∈ ids := by
  induction ids with
  | nil => intro a b h; simp [adjacentPairs] at h
  | cons x tail ih =>
    cases tail with
    | nil => intro a b h; simp [adjacentPairs] at h
    | cons y rest =>
      intro a b h
      rw [adjacentPairs, List.mem_cons] at h
      rcases h with h | h
      · rw [Prod.mk.injEq] at h
        obtain ⟨h1, h2⟩ := h
        subst h1; subst h2
        exact ⟨List.mem_cons_self _ _, List.mem_cons_of_mem _ (List.mem_cons_self _ _)⟩
      · obtain ⟨h1, h2⟩ := ih a b h
        exact ⟨List.mem_cons_of_mem _ h1, List.mem_cons_of_mem _ h2⟩

/-! ### `merge` loop ↔ structural scan -/

lemma mergeLoop_eq_go (numbers : List Nat) (pair : Nat × Nat) (idx : Nat) :
    ∀ fuel i result, numbers.length - i ≤ fuel →
      mergeLoop numbers pair idx fuel i result =
        result ++ mergeGo pair idx (numbers.drop i) := by
  intro fuel
  induction fuel with
  | zero =>
    intro i result h
    have hge : numbers.length ≤ i := by omega
    rw [mergeLoop, List.drop_eq_nil_of_le hge, mergeGo]
    simp
  | succ fuel ih =>
    intro i result h
    rw [mergeLoop]
    by_cases hi : i < numbers.length
    · rw [if_pos hi]
      have hdropi : numbers.drop i = numbers[i] :: numbers.drop (i + 1) :=
        List.drop_eq_getElem_cons hi
      have hgetD : numbers.getD i 0 = numbers[i] := by
        rw [List.getD_eq_getElem?_getD, List.getElem?_eq_getElem hi]; rfl
      by_cases hm : i + 1 < numbers.length ∧
          (numbers.getD i 0, numbers.getD (i + 1) 0) = pair
      · rw [if_pos hm]
        obtain ⟨hi1, hpair⟩ := hm
        have hdropi1 : numbers.drop (i + 1) = numbers[i + 1] :: numbers.drop (i + 2) :=
          List.drop_eq_getElem_cons hi1
        have hgetD1 : numbers.getD (i + 1) 0 = numbers[i + 1] := by
          rw [List.getD_eq_getElem?_getD, List.getElem?_eq_getElem hi1]; rfl
        rw [ih (i + 2) (result ++ [idx]) (by omega)]
        rw [hdropi, hdropi1, mergeGo]
        rw [← hgetD, ← hgetD1, hpair]
        simp
      · rw [if_neg hm]
        rw [ih (i + 1) (result ++ [numbers.getD i 0]) (by omega)]
        rw [hdropi]
        by_cases hi1 : i + 1 < numbers.length
        · have hnp : ¬ (numbers.getD i 0, numbers.getD (i + 1) 0) = pair := fun hp =>
            hm ⟨hi1, hp⟩
          have hdropi1 : numbers.drop (i + 1) = numbers[i + 1] :: numbers.drop (i + 2) :=
            List.drop_eq_getElem_cons hi1
          have hgetD1 : numbers.getD (i + 1) 0 = numbers[i + 1] := by
            rw [List.getD_eq_getElem?_getD, List.getElem?_eq_getElem hi1]; rfl
          rw [hdropi1, mergeGo]
          rw [← hgetD, ← hgetD1, if_neg hnp]
          simp [hgetD, ← hdropi1]
        · have hnil : numbers.drop (i + 1) = [] :=
            List.drop_eq_nil_of_le (by omega)
          rw [hnil, hgetD, mergeGo]
          simp [mergeGo]
    · rw [if_neg hi]
      rw [List.drop_eq_nil_of_le (by omega), mergeGo]
      simp

lemma merge_eq_go (numbers : List Nat) (pair : Nat × Nat) (idx : Nat) :
    merge numbers pair idx = mergeGo pair idx numbers := by
  rw [merge, mergeLoop_eq_go numbers pair idx numbers.length 0 [] (by omega)]
  simp

lemma mergeGo_length_le (pair : Nat × Nat) (idx : Nat) :
    ∀ ids, (mergeGo pair idx ids).length ≤ ids.length := by
  apply twoStepInduction
  · simp [mergeGo]
  · intro a; simp [mergeGo]
  · intro a b rest ih1 ih2
    rw [mergeGo]
    by_cases hp : (a, b) = pair
    · rw [if_pos hp]
      simp at ih1 ⊢
      omega
    · rw [if_neg hp]
      simp at ih2 ⊢
      omega

lemma mergeGo_length_lt (pair : Nat × Nat) (idx : Nat) :
    ∀ ids, pair ∈ adjacentPairs ids → (mergeGo pair idx ids).length < ids.length := by
  apply twoStepInduction
  · intro h; simp [adjacentPairs] at h
  · intro a h; simp [adjacentPairs] at h
  · intro a b rest ih1 ih2 h
    rw [mergeGo]
    by_cases hp : (a, b) = pair
    · rw [if_pos hp]
      have hrest := mergeGo_length_le pair idx rest
      simp at hrest ⊢
      omega
    · rw [if_neg hp]
      rw [adjacentPairs, List.mem_cons] at h
      rcases h with h | h
      · exact absurd h.symm hp
      · have := ih2 h
        simp at this ⊢
        omega

lemma mergeGo_mem (pair : Nat × Nat) (idx : Nat) :
    ∀ ids, ∀ x ∈ mergeGo pair idx ids, x ∈ ids ∨ x = idx := by
  apply twoStepInduction
  · intro x h; simp [mergeGo] at h
  · intro a x h
    simp [mergeGo] at h
    exact Or.inl (by simp [h])
  · intro a b rest ih1 ih2 x h
    rw [mergeGo] at h
    by_cases hp : (a, b) = pair
    · rw [if_pos hp, List.mem_cons] at h
      rcases h with h | h
      · exact Or.inr h
      · rcases ih1 x h with h2 | h2
        · exact Or.inl (by simp [h2])
        · exact Or.inr h2
    · rw [if_neg hp, List.mem_cons] at h
      rcases h with h | h
      · exact Or.inl (by simp [h])
      · rcases ih2 x h with h2 | h2
        · exact Or.inl (by simp [h2])
        · exact Or.inr h2

lemma mergeGo_join (vocab : List (List Nat)) (a b : Nat) (idx : Nat)
    (hexp : vocab.getD idx [] = vocab.getD a [] ++ vocab.getD b []) :
    ∀ ids, joinExpand vocab (mergeGo (a, b) idx ids) = joinExpand vocab ids := by
  apply twoStepInduction
  · rfl
  · intro x; rfl
  · intro x y rest ih1 ih2
    rw [mergeGo]
    by_cases hp : (x, y) = (a, b)
    · rw [if_pos hp]
      rw [Prod.mk.injEq] at hp
      obtain ⟨hx, hy⟩ := hp
      subst hx; subst hy
      rw [joinExpand, joinExpand, List.map_cons, List.map_cons, List.map_cons,
        List.flatten_cons, List.flatten_cons, List.flatten_cons, hexp]
      rw [joinExpand, joinExpand] at ih1
      rw [ih1, List.append_assoc]
    · rw [if_neg hp]
      rw [joinExpand, List.map_cons, List.flatten_cons]
      rw [joinExpand] at ih2
      rw [ih2]
      rfl

/-! ### Pair selection: Python `max` with key `(cnt[p], sum(p))` -/

lemma lexLT_irrefl (a : Nat × Nat) : ¬ lexLT a a := by
  obtain ⟨a1, a2⟩ := a
  rw [lexLT]
  omega

lemma lexLT_trans {a b c : Nat × Nat} (h1 : lexLT a b) (h2 : lexLT b c) : lexLT a c := by
  obtain ⟨a1, a2⟩ := a
  obtain ⟨b1, b2⟩ := b
  obtain ⟨c1, c2⟩ := c
  rw [lexLT] at h1 h2 ⊢
  omega

lemma lexLT_below {a b c : Nat × Nat} (h1 : lexLT a b) (h2 : ¬ lexLT c b) : lexLT a c := by
  obtain ⟨a1, a2⟩ := a
  obtain ⟨b1, b2⟩ := b
  obtain ⟨c1, c2⟩ := c
  rw [lexLT] at h1 h2 ⊢
  omega

lemma lexLT_antisymm {a b : Nat × Nat} (h1 : ¬ lexLT a b) (h2 : ¬ lexLT b a) : a = b := by
  obtain ⟨a1, a2⟩ := a
  obtain ⟨b1, b2⟩ := b
  rw [lexLT] at h1 h2
  rw [Prod.mk.injEq]
  omega

lemma find?_congrOn {α : Type} (p q : α → Bool) :
    ∀ l : List α, (∀ x ∈ l, p x = q x) → l.find? p = l.find? q := by
  intro l
  induction l with
  | nil => intro _; rfl
  | cons a t ih =>
    intro h
    rw [List.find?_cons, List.find?_cons, h a (List.mem_cons_self _ _)]
    cases hq : q a
    · exact ih (fun x hx => h x (List.mem_cons_of_mem _ hx))
    · rfl

lemma pickMax_mem (k : Nat × Nat → Nat × Nat) :
    ∀ (l : List (Nat × Nat)) (b : Nat × Nat), pickMax k b l ∈ b :: l := by
  intro l
  induction l with
  | nil => intro b; simp [pickMax]
  | cons x t ih =>
    intro b
    rw [pickMax, List.foldl_cons]
    by_cases h : lexLT (k b) (k x)
    · rw [if_pos h]
      have hm := ih x
      rw [pickMax] at hm
      rcases List.mem_cons.mp hm with h2 | h2
      · simp [h2]
      · simp [List.mem_cons_of_mem, h2]
    · rw [if_neg h]
      have hm := ih b
      rw [pickMax] at hm
      rcases List.mem_cons.mp hm with h2 | h2
      · simp [h2]
      · simp [List.mem_cons_of_mem, h2]

lemma pickMax_find (k : Nat × Nat → Nat × Nat) :
    ∀ (l : List (Nat × Nat)) (b : Nat × Nat),
      some (pickMax k b l) =
        (b :: l).find? (fun x => (b :: l).all (fun y => ! decide (lexLT (k x) (k y)))) := by
  intro l
  induction l with
  | nil =>
    intro b
    have hirr : decide (lexLT (k b) (k b)) = false := decide_eq_false (lexLT_irrefl _)
    simp [pickMax, List.find?, hirr]
  | cons x t ih =>
    intro b
    rw [pickMax, List.foldl_cons]
    by_cases hbx : lexLT (k b) (k x)
    · rw [if_pos hbx]
      have hLHS := ih x
      rw [pickMax] at hLHS
      rw [hLHS]
      have hPb : ((b :: x :: t).all (fun y => ! decide (lexLT (k b) (k y)))) = false := by
        rw [List.all_eq_false]
        exact ⟨x, by simp, by simp [hbx]⟩
      have hR : List.find?
            (fun z => (b :: x :: t).all (fun y => ! decide (lexLT (k z) (k y)))) (b :: x :: t) =
          List.find?
            (fun z => (b :: x :: t).all (fun y => ! decide (lexLT (k z) (k y)))) (x :: t) :=
        List.find?_cons_of_neg _ (by rw [hPb]; exact Bool.false_ne_true)
      rw [hR]
      apply find?_congrOn
      intro z hz
      conv_rhs => rw [List.all_cons]
      cases hP : (x :: t).all (fun y => ! decide (lexLT (k z) (k y)))
      · simp
      · have hzx : ¬ lexLT (k z) (k x) := by
          rw [List.all_eq_true] at hP
          have := hP x (by simp)
          simpa using this
        have hzb : ¬ lexLT (k z) (k b) := fun hlt => hzx (lexLT_trans hlt hbx)
        simp [hzb]
    · rw [if_neg hbx]
      have hLHS := ih b
      rw [pickMax] at hLHS
      rw [hLHS]
      have hfbx : (! decide (lexLT (k b) (k x))) = true := by simp [hbx]
      cases hPb : ((b :: t).all (fun y => ! decide (lexLT (k b) (k y))))
      · have hPb2 : ((b :: x :: t).all (fun y => ! decide (lexLT (k b) (k y)))) = false := by
          rw [List.all_cons] at hPb ⊢
          rw [List.all_cons]
          rw [Bool.and_eq_false_iff] at hPb
          rcases hPb with h | h
          · rw [h]; rfl
          · rw [hfbx, h]
            simp
        have hPx : ((b :: x :: t).all (fun y => ! decide (lexLT (k x) (k y)))) = false := by
          cases hPxc : ((b :: x :: t).all (fun y => ! decide (lexLT (k x) (k y))))
          · rfl
          · exfalso
            rw [List.all_eq_true] at hPxc
            have hxb : ¬ lexLT (k x) (k b) := by
              have := hPxc b (by simp)
              simpa using this
            have hkeq : k x = k b := lexLT_antisymm hxb hbx
            have hPbtrue : ((b :: t).all (fun y => ! decide (lexLT (k b) (k y)))) = true := by
              rw [List.all_eq_true]
              intro y hy
              have hy2 : y ∈ b :: x :: t := by
                rcases List.mem_cons.mp hy with h | h
                · simp [h]
                · simp [List.mem_cons_of_mem, h]
              have := hPxc y hy2
              rw [← hkeq]
              exact this
            rw [hPb] at hPbtrue
            exact Bool.false_ne_true hPbtrue
        have hR1 : List.find?
              (fun z => (b :: t).all (fun y => ! decide (lexLT (k z) (k y)))) (b :: t) =
            List.find?
              (fun z => (b :: t).all (fun y => ! decide (lexLT (k z) (k y)))) t :=
          List.find?_cons_of_neg _ (by rw [hPb]; exact Bool.false_ne_true)
        have hR2 : List.find?
              (fun z => (b :: x :: t).all (fun y => ! decide (lexLT (k z) (k y)))) (b :: x :: t) =
            List.find?
              (fun z => (b :: x :: t).all (fun y => ! decide (lexLT (k z) (k y)))) (x :: t) :=
          List.find?_cons_of_neg _ (by rw [hPb2]; exact Bool.false_ne_true)
        have hR3 : List.find?
              (fun z => (b :: x :: t).all (fun y => ! decide (lexLT (k z) (k y)))) (x :: t) =
            List.find?
              (fun z => (b :: x :: t).all (fun y => ! decide (lexLT (k z) (k y)))) t :=
          List.find?_cons_of_neg _ (by rw [hPx]; exact Bool.false_ne_true)
        rw [hR1, hR2, hR3]
        apply find?_congrOn
        intro z hz
        rw [List.all_cons, List.all_cons, List.all_cons]
        cases hfzb : (! decide (lexLT (k z) (k b)))
        · rfl
        · have hzb : ¬ lexLT (k z) (k b) := by simpa using hfzb
          have hzx : ¬ lexLT (k z) (k x) := fun hlt => hzb (lexLT_below hlt hbx)
          simp [hzx]
      · have hPb2 : ((b :: x :: t).all (fun y => ! decide (lexLT (k b) (k y)))) = true := by
          rw [List.all_cons] at hPb ⊢
          rw [List.all_cons]
          rw [Bool.and_eq_true] at hPb
          rw [hfbx, hPb.1, hPb.2]
          rfl
        have hR1 : List.find?
              (fun z => (b :: t).all (fun y => ! decide (lexLT (k z) (k y)))) (b :: t) =
            some b :=
          List.find?_cons_of_pos _ hPb
        have hR2 : List.find?
              (fun z => (b :: x :: t).all (fun y => ! decide (lexLT (k z) (k y)))) (b :: x :: t) =
            some b :=
          List.find?_cons_of_pos _ hPb2
        rw [hR1, hR2]

lemma selectPair_mem (cnt : List ((Nat × Nat) × Nat)) (p : Nat × Nat)
    (h : selectPair cnt = some p) : p ∈ keysOf cnt := by
  cases cnt with
  | nil => simp [selectPair] at h
  | cons e rest =>
    rw [selectPair, Option.some.injEq] at h
    rw [← h]
    exact pickMax_mem (pkey (e :: rest)) (keysOf rest) e.1

lemma selectPair_eq_find (cnt : List ((Nat × Nat) × Nat)) :
    selectPair cnt = (keysOf cnt).find? (isMaxKey cnt) := by
  cases cnt with
  | nil => rfl
  | cons e rest =>
    rw [selectPair, pickMax_find (pkey (e :: rest)) (keysOf rest) e.1]
    rfl

/-! ### Decoding lemmas -/

lemma decodeBytes_ok (vocab : List (List Nat)) :
    ∀ ids, (∀ i ∈ ids, i < vocab.length) →
      decodeBytes vocab ids = Except.ok (joinExpand vocab ids) := by
  intro ids
  induction ids with
  | nil => intro _; rfl
  | cons i rest ih =>
    intro h
    have hi : i < vocab.length := h i (List.mem_cons_self _ _)
    have hD : vocab.getD i [] = vocab[i] := by
      rw [List.getD_eq_getElem?_getD, List.getElem?_eq_getElem hi]; rfl
    simp only [decodeBytes, List.getElem?_eq_getElem hi,
      ih (fun j hj => h j (List.mem_cons_of_mem _ hj)), joinExpand, List.map_cons,
      List.flatten_cons, Except.map, hD]

lemma decodeBytes_error_iff (vocab : List (List Nat)) :
    ∀ ids, (∃ e, decodeBytes vocab ids = Except.error e) ↔ ∃ i ∈ ids, vocab[i]? = none := by
  intro ids
  induction ids with
  | nil =>
    constructor
    · intro ⟨e, he⟩
      rw [decodeBytes] at he
      exact absurd he (by simp)
    · intro ⟨i, hi, _⟩
      exact absurd hi (List.not_mem_nil i)
  | cons i rest ih =>
    constructor
    · intro ⟨e, he⟩
      rw [decodeBytes] at he
      cases hv : vocab[i]? with
      | none => exact ⟨i, List.mem_cons_self _ _, hv⟩
      | some ex =>
        rw [hv] at he
        cases hd : decodeBytes vocab rest with
        | ok bs => rw [hd] at he; exact absurd he (by simp [Except.map])
        | error e2 =>
          obtain ⟨j, hj, hjv⟩ := ih.mp ⟨e2, hd⟩
          exact ⟨j, List.mem_cons_of_mem _ hj, hjv⟩
    · intro ⟨j, hj, hjv⟩
      rw [decodeBytes]
      cases hv : vocab[i]? with
      | none => exact ⟨DecodeError.unknownSymbol i, rfl⟩
      | some ex =>
        have hjr : j ∈ rest := by
          rcases List.mem_cons.mp hj with h | h
          · rw [h] at hjv; rw [hjv] at hv; exact absurd hv (by simp)
          · exact h
        obtain ⟨e2, he2⟩ := ih.mpr ⟨j, hjr, hjv⟩
        rw [he2]
        exact ⟨e2, by simp [Except.map]⟩

/-! ### Base vocabulary lemmas -/

lemma baseVocab_eq :
    baseVocab = (List.range 256).map (fun idx => [idx]) ++ [padBytes, bosBytes, eosBytes] := by
  rw [baseVocab, special_tokens]
  simp

lemma baseVocab_length : baseVocab.length = 259 := by
  rw [baseVocab_eq]
  simp

lemma baseVocab_get_byte (b : Nat) (hb : b < 256) : baseVocab[b]? = some [b] := by
  rw [baseVocab_eq, List.getElem?_append]
  rw [if_pos (by simp [hb])]
  rw [List.getElem?_map, List.getElem?_range hb]
  rfl

lemma baseVocab_get? (i : Nat) :
    baseVocab[i]? =
      if i < 256 then some [i]
      else if i = 256 then some padBytes
      else if i = 257 then some bosBytes
      else if i = 258 then some eosBytes
      else none := by
  by_cases h256 : i < 256
  · rw [if_pos h256]
    exact baseVocab_get_byte i h256
  · rw [if_neg h256, baseVocab_eq]
    have hlen : ((List.range 256).map (fun idx => ([idx] : List Nat))).length = 256 := by simp
    rw [List.getElem?_append_right (by rw [hlen]; omega)]
    rw [hlen]
    by_cases h1 : i = 256
    · subst h1; rfl
    · by_cases h2 : i = 257
      · subst h2; rfl
      · by_cases h3 : i = 258
        · subst h3; rfl
        · rw [if_neg h1, if_neg h2, if_neg h3]
          apply List.getElem?_eq_none
          simp
          omega

lemma tokInv_init : TokInv bpeInit := by
  constructor
  · intro b hb
    exact baseVocab_get_byte b hb
  · intro p i h
    simp [lookupA] at h

/-! ### Training invariant -/

lemma getElem?_some_lt (v : List (List Nat)) (i : Nat) (x : List Nat)
    (h : v[i]? = some x) : i < v.length := by
  by_contra hc
  rw [List.getElem?_eq_none (by omega)] at h
  exact absurd h (by simp)

lemma getElem?_extend (v : List (List Nat)) (e : List Nat) (i : Nat) (x : List Nat)
    (h : v[i]? = some x) : (v ++ [e])[i]? = some x := by
  rw [List.getElem?_append, if_pos (getElem?_some_lt v i x h)]
  exact h

lemma getD_of_getElem? (v : List (List Nat)) (i : Nat) (x : List Nat)
    (h : v[i]? = some x) : v.getD i [] = x := by
  rw [List.getD_eq_getElem?_getD, h]
  rfl

lemma getElem?_of_lt (v : List (List Nat)) (i : Nat) (h : i < v.length) :
    v[i]? = some (v.getD i []) := by
  rw [List.getElem?_eq_getElem h, List.getD_eq_getElem?_getD, List.getElem?_eq_getElem h]
  rfl

lemma lookupA_dictInsert (p : Nat × Nat) (v : Nat) :
    ∀ m q, lookupA (dictInsert m p v) q = if p = q then some v else lookupA m q := by
  intro m
  induction m with
  | nil =>
    intro q
    by_cases h : p = q
    · simp [dictInsert, lookupA, h]
    · simp [dictInsert, lookupA, h]
  | cons e rest ih =>
    intro q
    obtain ⟨r, c⟩ := e
    by_cases hrp : r = p
    · by_cases hpq : p = q
      · simp [dictInsert, lookupA, hrp, hpq, hrp.trans hpq]
      · have hrq : ¬ r = q := fun h => hpq (hrp.symm.trans h)
        simp [dictInsert, lookupA, hrp, hpq, hrq]
    · by_cases hrq : r = q
      · have hpq : ¬ p = q := fun h => hrp (hrq.trans h.symm)
        have hqp : ¬ q = p := fun h => hrp (hrq.trans h)
        simp [dictInsert, lookupA, hrp, hrq, hpq, hqp]
      · simp [dictInsert, lookupA, hrp, hrq, ih]

lemma tokInv_step (st : BpeState) (pair : Nat × Nat)
    (h1 : pair.1 < st.vocab.length) (h2 : pair.2 < st.vocab.length)
    (hinv : TokInv st) :
    TokInv ⟨st.vocab ++ [st.vocab.getD pair.1 [] ++ st.vocab.getD pair.2 []],
            dictInsert st.merges pair st.vocab.length⟩ := by
  obtain ⟨hbyte, hmerge⟩ := hinv
  constructor
  · intro b hb
    exact getElem?_extend _ _ _ _ (hbyte b hb)
  · intro q i h
    rw [lookupA_dictInsert] at h
    by_cases hpq : pair = q
    · rw [if_pos hpq, Option.some.injEq] at h
      refine ⟨st.vocab.getD q.1 [], st.vocab.getD q.2 [], ?_, ?_, ?_⟩
      · exact getElem?_extend _ _ _ _ (getElem?_of_lt _ _ (hpq ▸ h1))
      · exact getElem?_extend _ _ _ _ (getElem?_of_lt _ _ (hpq ▸ h2))
      · rw [← h, ← hpq]
        exact List.getElem?_concat_length _ _
    · rw [if_neg hpq] at h
      obtain ⟨e1, e2, he1, he2, hei⟩ := hmerge q i h
      exact ⟨e1, e2, getElem?_extend _ _ _ _ he1, getElem?_extend _ _ _ _ he2,
        getElem?_extend _ _ _ _ hei⟩

lemma trainLoop_inv :
    ∀ fuel (st : BpeState) (seqs : List (List Nat)) (st2 : BpeState),
      TokInv st →
      (∀ ids ∈ seqs, ∀ x ∈ ids, x < st.vocab.length) →
      trainLoop fuel st seqs = Except.ok st2 → TokInv st2 := by
  intro fuel
  induction fuel with
  | zero =>
    intro st seqs st2 hinv hseqs h
    simp only [trainLoop, Except.ok.injEq] at h
    rw [← h]
    exact hinv
  | succ fuel ih =>
    intro st seqs st2 hinv hseqs h
    cases hsel : selectPair (count_pairs seqs) with
    | none =>
      simp only [trainLoop, hsel] at h
      exact Except.noConfusion h
    | some pair =>
      by_cases hfreq : cntOf (count_pairs seqs) pair = 1
      · simp only [trainLoop, hsel, if_pos hfreq, Except.ok.injEq] at h
        rw [← h]
        exact hinv
      · simp only [trainLoop, hsel, if_neg hfreq] at h
        have hp : pair ∈ keysOf (count_pairs seqs) := selectPair_mem _ _ hsel
        obtain ⟨ids0, hids0, hpadj⟩ := mem_keys_count_pairs _ _ hp
        have hpp : (pair.1, pair.2) ∈ adjacentPairs ids0 := by
          rw [Prod.mk.eta]
          exact hpadj
        obtain ⟨hm1, hm2⟩ := adjacentPairs_mem ids0 pair.1 pair.2 hpp
        have h1 : pair.1 < st.vocab.length := hseqs ids0 hids0 _ hm1
        have h2 : pair.2 < st.vocab.length := hseqs ids0 hids0 _ hm2
        refine ih _ _ _ (tokInv_step st pair h1 h2 hinv) ?_ h
        intro ids hids x hx
        rw [List.mem_map] at hids
        obtain ⟨ids1, hids1, hmap⟩ := hids
        rw [← hmap] at hx
        rw [merge_eq_go] at hx
        have hlen2 : (st.vocab ++
            [st.vocab.getD pair.1 [] ++ st.vocab.getD pair.2 []]).length =
            st.vocab.length + 1 := by simp
        rw [hlen2]
        rcases mergeGo_mem pair st.vocab.length ids1 x hx with hxm | hxm
        · have := hseqs ids1 hids1 x hxm
          omega
        · omega

lemma train_inv (texts : List (List Nat)) (maxV : Nat) (st : BpeState)
    (htexts : ∀ t ∈ texts, ∀ b ∈ t, b < 256)
    (h : train texts maxV = Except.ok st) : TokInv st := by
  rw [train] at h
  by_cases hle : maxV ≤ bpeInit.vocab.length
  · rw [if_pos hle, Except.ok.injEq] at h
    rw [← h]
    exact tokInv_init
  · rw [if_neg hle] at h
    refine trainLoop_inv _ bpeInit texts st tokInv_init ?_ h
    intro ids hids x hx
    have hb : x < 256 := htexts ids hids x hx
    have : bpeInit.vocab.length = 259 := baseVocab_length
    omega

/-! ### Encoding lemmas -/

lemma merge_shrink (ids : List Nat) (p : Nat × Nat) (idx : Nat)
    (h : p ∈ keysOf (count_pairs [ids])) : (merge ids p idx).length < ids.length := by
  obtain ⟨l, hl, hadj⟩ := mem_keys_count_pairs [ids] p h
  have hli : l = ids := by simpa using hl
  rw [hli] at hadj
  rw [merge_eq_go]
  have hpp : (p.1, p.2) ∈ adjacentPairs ids := by
    rw [Prod.mk.eta]
    exact hadj
  have := mergeGo_length_lt (p.1, p.2) idx ids hpp
  rw [Prod.mk.eta] at this
  exact this

lemma lookup_merge_expand (st : BpeState) (hinv : TokInv st) (pair : Nat × Nat) (idx : Nat)
    (h : lookupA st.merges pair = some idx) :
    idx < st.vocab.length ∧
      st.vocab.getD idx [] = st.vocab.getD pair.1 [] ++ st.vocab.getD pair.2 [] := by
  obtain ⟨e1, e2, he1, he2, hei⟩ := hinv.2 pair idx h
  refine ⟨getElem?_some_lt _ _ _ hei, ?_⟩
  rw [getD_of_getElem? _ _ _ hei, getD_of_getElem? _ _ _ he1, getD_of_getElem? _ _ _ he2]

lemma encodeFuel_props (st : BpeState) (hinv : TokInv st) :
    ∀ fuel ids, (∀ x ∈ ids, x < st.vocab.length) →
      (∀ x ∈ encodeFuel st.merges fuel ids, x < st.vocab.length) ∧
      joinExpand st.vocab (encodeFuel st.merges fuel ids) = joinExpand st.vocab ids := by
  intro fuel
  induction fuel with
  | zero =>
    intro ids hids
    exact ⟨hids, rfl⟩
  | succ fuel ih =>
    intro ids hids
    by_cases hlen : 1 < ids.length
    · cases hsel : selectPair (count_pairs [ids]) with
      | none =>
        rw [encodeFuel, if_pos hlen]
        simp only [hsel]
        exact ⟨hids, trivial⟩
      | some pair =>
        cases hlook : lookupA st.merges pair with
        | none =>
          rw [encodeFuel, if_pos hlen]
          simp only [hsel, hlook]
          exact ⟨hids, trivial⟩
        | some idx =>
          rw [encodeFuel, if_pos hlen]
          simp only [hsel, hlook]
          obtain ⟨hidx, hexp⟩ := lookup_merge_expand st hinv pair idx hlook
          have hbound : ∀ x ∈ merge ids pair idx, x < st.vocab.length := by
            intro x hx
            rw [merge_eq_go] at hx
            rcases mergeGo_mem pair idx ids x hx with hxm | hxm
            · exact hids x hxm
            · rw [hxm]; exact hidx
          obtain ⟨hA, hB⟩ := ih (merge ids pair idx) hbound
          refine ⟨hA, ?_⟩
          rw [hB, merge_eq_go]
          have hjoin := mergeGo_join st.vocab pair.1 pair.2 idx hexp ids
          rw [Prod.mk.eta] at hjoin
          exact hjoin
    · rw [encodeFuel, if_neg hlen]
      exact ⟨hids, rfl⟩

lemma joinExpand_bytes (st : BpeState) (hinv : TokInv st) :
    ∀ bs, (∀ b ∈ bs, b < 256) → joinExpand st.vocab bs = bs := by
  intro bs
  induction bs with
  | nil => intro _; rfl
  | cons b rest ih =>
    intro h
    have hb : b < 256 := h b (List.mem_cons_self _ _)
    rw [joinExpand, List.map_cons, List.flatten_cons]
    rw [getD_of_getElem? _ _ _ (hinv.1 b hb)]
    rw [joinExpand] at ih
    rw [ih (fun j hj => h j (List.mem_cons_of_mem _ hj))]
    rfl

lemma bytes_lt_length (st : BpeState) (hinv : TokInv st) (bs : List Nat)
    (h : ∀ b ∈ bs, b < 256) : ∀ b ∈ bs, b < st.vocab.length := by
  intro b hb
  exact getElem?_some_lt _ _ _ (hinv.1 b (h b hb))

lemma encodeFuel_stable (merges : List ((Nat × Nat) × Nat)) :
    ∀ f1 f2 ids, ids.length ≤ f1 → ids.length ≤ f2 →
      encodeFuel merges f1 ids = encodeFuel merges f2 ids := by
  intro f1
  induction f1 with
  | zero =>
    intro f2 ids h1 h2
    have hnil : ids = [] := List.eq_nil_of_length_eq_zero (by omega)
    rw [hnil]
    cases f2 with
    | zero => rfl
    | succ f2 => rw [encodeFuel, encodeFuel, if_neg (by simp)]
  | succ f1 ih =>
    intro f2 ids h1 h2
    cases f2 with
    | zero =>
      have hnil : ids = [] := List.eq_nil_of_length_eq_zero (by omega)
      rw [hnil]
      rw [encodeFuel, encodeFuel, if_neg (by simp)]
    | succ f2 =>
      by_cases hlen : 1 < ids.length
      · cases hsel : selectPair (count_pairs [ids]) with
        | none =>
          rw [encodeFuel, encodeFuel, if_pos hlen, if_pos hlen]
          simp only [hsel]
        | some pair =>
          cases hlook : lookupA merges pair with
          | none =>
            rw [encodeFuel, encodeFuel, if_pos hlen, if_pos hlen]
            simp only [hsel, hlook]
          | some idx =>
            rw [encodeFuel, encodeFuel, if_pos hlen, if_pos hlen]
            simp only [hsel, hlook]
            have hshrink : (merge ids pair idx).length < ids.length :=
              merge_shrink ids pair idx (selectPair_mem _ _ hsel)
            exact ih f2 (merge ids pair idx) (by omega) (by omega)
      · rw [encodeFuel, encodeFuel, if_neg hlen, if_neg hlen]

/-! ## Claim theorems -/

/-- C1: Round-trip law: for every text (embedded as its UTF-8 byte
sequence, elements < 256), decoding the encoding returns the original
bytes — both for the base `ByteTokenizer` vocabulary and for the state
produced by any successful `BpeTokenizer.train` run on any corpus and
target size. -/
theorem c1_round_trip (bs : List Nat) (hbs : ∀ b ∈ bs, b < 256) :
    decodeBytes bpeInit.vocab (byteEncode bs) = Except.ok bs ∧
    (∀ texts maxV st, (∀ t ∈ texts, ∀ b ∈ t, b < 256) →
      train texts maxV = Except.ok st →
      decodeBytes st.vocab (bpeEncode st bs) = Except.ok bs) := by
  constructor
  · have hlt := bytes_lt_length bpeInit tokInv_init bs hbs
    rw [byteEncode, decodeBytes_ok _ _ hlt, joinExpand_bytes bpeInit tokInv_init bs hbs]
  · intro texts maxV st htexts htrain
    have hinv := train_inv texts maxV st htexts htrain
    have hlt := bytes_lt_length st hinv bs hbs
    obtain ⟨hA, hB⟩ := encodeFuel_props st hinv bs.length bs hlt
    rw [bpeEncode, decodeBytes_ok _ _ hA, hB, joinExpand_bytes st hinv bs hbs]

/-- Witness for C1 at the text "abab" and the tokenizer trained on
["abab"] with target size 260 (one merge, `(97,98) ↦ 259`). -/
theorem c1_round_trip_witness :
    decodeBytes bpeInit.vocab (byteEncode [97, 98, 97, 98]) = Except.ok [97, 98, 97, 98] ∧
    decodeBytes st260.vocab (bpeEncode st260 [97, 98, 97, 98]) = Except.ok [97, 98, 97, 98] :=
  ⟨(c1_round_trip [97, 98, 97, 98] (by decide)).1,
   (c1_round_trip [97, 98, 97, 98] (by decide)).2 [[97, 98, 97, 98]] 260 st260
     (by decide) (by decide)⟩

/-- C2: `merge` is the greedy, left-to-right, non-overlapping scan
(`mergeGo`): on a match it emits the replacement id and advances two
positions, otherwise it emits the current element and advances one; the
three documented examples hold. -/
theorem c2_substitution :
    (∀ numbers pair idx, merge numbers pair idx = mergeGo pair idx numbers) ∧
    merge [0, 0, 0, 1] (0, 0) 9 = [9, 0, 1] ∧
    merge [1, 2, 3, 2, 3, 4] (2, 3) 9 = [1, 9, 9, 4] ∧
    merge [1, 2, 2, 3, 4] (2, 3) 99 = [1, 2, 99, 4] := by
  refine ⟨merge_eq_go, ?_, ?_, ?_⟩
  · decide
  · decide
  · decide

/-- C3 counterexample: on the sequence [2,3,1,4] the pairs (2,3) and
(1,4) are distinct and both maximal under the (frequency, id-sum) key
(both have frequency 1 and id sum 5), so the claimed rule does NOT pick a
unique winner; the code resolves the residual tie by dict insertion
order, selecting (2,3). -/
theorem c3_counterexample :
    (2, 3) ∈ keysOf (count_pairs [[2, 3, 1, 4]]) ∧
    (1, 4) ∈ keysOf (count_pairs [[2, 3, 1, 4]]) ∧
    ((2, 3) : Nat × Nat) ≠ (1, 4) ∧
    isMaxKey (count_pairs [[2, 3, 1, 4]]) (2, 3) = true ∧
    isMaxKey (count_pairs [[2, 3, 1, 4]]) (1, 4) = true ∧
    selectPair (count_pairs [[2, 3, 1, 4]]) = some (2, 3) ∧
    ¬ (∀ p q : Nat × Nat,
        p ∈ keysOf (count_pairs [[2, 3, 1, 4]]) →
        q ∈ keysOf (count_pairs [[2, 3, 1, 4]]) →
        isMaxKey (count_pairs [[2, 3, 1, 4]]) p = true →
        isMaxKey (count_pairs [[2, 3, 1, 4]]) q = true → p = q) := by
  refine ⟨by decide, by decide, by decide, by decide, by decide, by decide, ?_⟩
  intro h
  exact absurd (h (2, 3) (1, 4) (by decide) (by decide) (by decide) (by decide)) (by decide)

/-- C3 amended: pair selection (used verbatim by both training and
encoding) returns the first key, in pair-dict insertion order, that no
other key strictly exceeds in the lexicographic (frequency, id-sum)
order — i.e. it maximizes (frequency, id-sum), and remaining ties on
both components are broken by earliest insertion (Python `max` keeps the
first maximal element). -/
theorem c3_selection_rule (cnt : List ((Nat × Nat) × Nat)) :
    selectPair cnt = (keysOf cnt).find? (isMaxKey cnt) :=
  selectPair_eq_find cnt

/-- C4: the code, not the claim, is at fault on this input: training
`["ab", "ab"]` to target size 261 merges `(97,98) ↦ 259` in the first
iteration, leaving only singleton sequences; the second iteration calls
`max()` on an empty pair dict and raises `ValueError`, so training
neither reaches the target nor stops via the frequency-1 rule. -/
theorem c4_train_crash :
    train [[97, 98], [97, 98]] 261 = Except.error TrainError.maxOfEmpty := by
  decide

/-- C5: for any successfully trained state and any text of bytes < 256,
every id produced by `BpeTokenizer.encode` is a key of the vocabulary
(in the embedding, vocabulary keys are exactly the indices below
`vocab.length`). -/
theorem c5_encode_ids_in_vocab (texts : List (List Nat)) (maxV : Nat) (st : BpeState)
    (htexts : ∀ t ∈ texts, ∀ b ∈ t, b < 256)
    (htrain : train texts maxV = Except.ok st)
    (text : List Nat) (htext : ∀ b ∈ text, b < 256) :
    ∀ id ∈ bpeEncode st text, id < st.vocab.length := by
  have hinv := train_inv texts maxV st htexts htrain
  exact (encodeFuel_props st hinv text.length text (bytes_lt_length st hinv text htext)).1

/-- Witness for C5: the tokenizer trained on ["abab"] to size 260
encodes "ab" as [259], which is a vocabulary key. -/
theorem c5_encode_ids_in_vocab_witness : 259 < st260.vocab.length :=
  c5_encode_ids_in_vocab [[97, 98, 97, 98]] 260 st260 (by decide) (by decide)
    [97, 98] (by decide) 259 (by decide)

/-- C6: `count_pairs` returns, for every ordered pair, the exact number
of its adjacent occurrences summed over all sequences of the batch
(pairs never cross sequence boundaries), and the documented example
holds, including dict insertion order. -/
theorem c6_count_pairs :
    (∀ data p, cntOf (count_pairs data) p =
      (data.map (fun ids => (adjacentPairs ids).count p)).sum) ∧
    count_pairs [[1, 2, 3], [2, 3, 4], [1, 2, 2]] =
      [((1, 2), 2), ((2, 3), 2), ((3, 4), 1), ((2, 2), 1)] := by
  constructor
  · intro data p
    have h := cntOf_count_pairs_aux data p []
    rw [count_pairs]
    simpa [cntOf, lookupA] using h
  · decide

/-- C7: decode fails with an unknown-symbol error exactly when some id
of the input is not a vocabulary key; when every id is known it returns
the concatenated expansions without raising.  (The trailing UTF-8
`errors='replace'` step is Python's codec — total and deterministic on
the byte string — so decode is stated at the byte level.) -/
theorem c7_decode_total (vocab : List (List Nat)) (ids : List Nat) :
    ((∃ e, decodeBytes vocab ids = Except.error e) ↔ ∃ i ∈ ids, vocab[i]? = none) ∧
    ((∀ i ∈ ids, i < vocab.length) →
      decodeBytes vocab ids = Except.ok (joinExpand vocab ids)) :=
  ⟨decodeBytes_error_iff vocab ids, decodeBytes_ok vocab ids⟩

/-- Witness for C7: "hi" decodes under the base vocabulary; id 300 is
unknown and makes decode fail. -/
theorem c7_decode_total_witness :
    decodeBytes baseVocab [104, 105] = Except.ok (joinExpand baseVocab [104, 105]) ∧
    (∃ e, decodeBytes baseVocab [300] = Except.error e) :=
  ⟨(c7_decode_total baseVocab [104, 105]).2 (by decide),
   (c7_decode_total baseVocab [300]).1.mpr ⟨300, by decide, by decide⟩⟩

/-- C8: `init_vocab` builds exactly 259 entries — ids 0..255 mapped to
their single-byte expansions, followed by the pad, bos and eos control
tokens at ids 256, 257, 258 and nothing else — and re-initializing is
idempotent. -/
theorem c8_init_vocab :
    baseVocab.length = 259 ∧
    (∀ i : Nat, baseVocab[i]? =
      if i < 256 then some [i]
      else if i = 256 then some padBytes
      else if i = 257 then some bosBytes
      else if i = 258 then some eosBytes
      else none) ∧
    (∀ s : BpeState, initVocabFn (initVocabFn s) = initVocabFn s) :=
  ⟨baseVocab_length, baseVocab_get?, fun _ => rfl⟩

/-- C9: requesting a target size not larger than the base vocabulary
(259) makes `train` return right after the reset for every corpus: no
merges, base vocabulary unchanged. -/
theorem c9_degenerate_train (texts : List (List Nat)) (maxV : Nat) (hle : maxV ≤ 259) :
    train texts maxV = Except.ok bpeInit ∧
    bpeInit.merges = [] ∧ bpeInit.vocab.length = 259 := by
  have hlen : bpeInit.vocab.length = 259 := baseVocab_length
  refine ⟨?_, rfl, hlen⟩
  rw [train, if_pos (by omega)]

/-- Witness for C9 at a concrete corpus and target size 100. -/
theorem c9_degenerate_train_witness :
    train [[104, 105]] 100 = Except.ok bpeInit ∧
    bpeInit.merges = [] ∧ bpeInit.vocab.length = 259 :=
  c9_degenerate_train [[104, 105]] 100 (by decide)

/-- C10: `BpeTokenizer.encode` terminates on every input: substituting a
pair that occurs in the sequence (any key of its pair counts) strictly
decreases the length, hence the loop runs at most `length` iterations —
any iteration budget of at least the input length yields the same
result. -/
theorem c10_encode_terminates :
    (∀ ids p idx, p ∈ keysOf (count_pairs [ids]) →
      (merge ids p idx).length < ids.length) ∧
    (∀ merges fuel ids, ids.length ≤ fuel →
      encodeFuel merges fuel ids = encodeFuel merges ids.length ids) := by
  constructor
  · intro ids p idx hp
    exact merge_shrink ids p idx hp
  · intro merges fuel ids hf
    exact encodeFuel_stable merges fuel ids.length ids hf (le_refl _)

/-- Witness for C10: substituting (1,2) in [1,2,3] shrinks the length,
and extra iteration budget does not change the encoding of [1,2]. -/
theorem c10_encode_terminates_witness :
    (merge [1, 2, 3] (1, 2) 9).length < [1, 2, 3].length ∧
    encodeFuel [] 5 [1, 2] = encodeFuel [] 2 [1, 2] :=
  ⟨c10_encode_terminates.1 [1, 2, 3] (1, 2) 9 (by decide),
   c10_encode_terminates.2 [] 5 [1, 2] (by decide)⟩
